import Mathlib

/-!
Verification of the adaptive, checkpointed batch scheduler of
`fortunate_expedition.py` (the "Expedition" edition of the fortunate-primes
repository).  The Python source is shallowly embedded: Python `int`s become
`Nat` (every integer handled by the scheduler is non-negative), Python
`float`s become `Rat` (the timing values are only carried around, averaged
and compared), Python lists/tuples become Lean lists/pairs, and fallible
code returns `Except`.  The external collaborators (gmpy2 primality oracle,
`next_prime`) are parameters of the definitions, exactly as the spec
declares them out of scope.
-/

namespace Expedition

/-! ## Search state (class `SearchState`, fortunate_expedition.py lines 63-81)

One record per index `n`.  The orchestrator owns a dict `n -> SearchState`;
`_get_next_task` and `_process_result` act on one entry at a time, so the
per-search bookkeeping is modelled on a single `SearchState`.  The
orchestrator's `results` dict contains `n` exactly when `searches[n].completed`
is true (both are set together by `_finalize_result`, nothing follows), so the
guard `if n in self.state.results: return` is modelled by the `completed` flag.
-/

structure SearchState where
  n : Nat
  p_n_plus_1 : Nat
  next_offset : Nat
  completed_up_to : Nat
  pending_ranges : List (Nat × Nat)
  best_candidate : Option Nat
  completed : Bool
deriving DecidableEq, Repr

/-- `_create_initial_state` (lines 488-510) restricted to one search:
`next_offset = completed_up_to = p_n_plus_1`, no pending ranges. -/
def freshSearch (n p : Nat) : SearchState :=
  { n := n, p_n_plus_1 := p, next_offset := p, completed_up_to := p,
    pending_ranges := [], best_candidate := none, completed := false }

/-- The fresh-range branch of `_get_next_task` (lines 580-587): take
`next_offset` as the start, advance it by the batch width, and append the
range to `pending_ranges`. -/
def reserveRange (s : SearchState) (w : Nat) : SearchState :=
  { s with next_offset := s.next_offset + w,
           pending_ranges :=
             s.pending_ranges ++ [(s.next_offset, s.next_offset + w)] }

/-- The best-candidate update of `_process_result` (lines 674-677): keep the
smaller of the current candidate and a newly found offset. -/
def updateBest (b : Option Nat) (found : Option Nat) : Option Nat :=
  match found with
  | none => b
  | some m =>
    match b with
    | none => some m
    | some b0 => if m < b0 then some m else some b0

/-- `min(r[0] for r in pending_ranges)` — the minimum start among pending
ranges (junk value 0 on the empty list, which the code never takes). -/
def minStart (l : List (Nat × Nat)) : Nat :=
  match l with
  | [] => 0
  | r :: rs => rs.foldl (fun a x => min a x.1) r.1

/-- The `completed_up_to` recomputation of `_process_result` (lines 664-672):
`next_offset` when nothing is pending, else the minimum pending start. -/
def boundary (pending : List (Nat × Nat)) (nextOff : Nat) : Nat :=
  if pending.isEmpty then nextOff else minStart pending

/-- The completion test of `_process_result` (lines 679-684): a best candidate
exists and `completed_up_to` has reached it. -/
def shouldFinalize (best : Option Nat) (cu : Nat) : Bool :=
  match best with
  | some b => b ≤ cu
  | none => false

/-- `_process_result` (lines 636-687) together with `_finalize_result`
(lines 689-694), restricted to the search-state bookkeeping: skip when the
search is already finalized, remove the resolved range from `pending_ranges`
(`list.remove`, a no-op via `except ValueError: pass` when absent), recompute
`completed_up_to`, fold the found offset into `best_candidate`, and when the
completion test passes freeze `pending_ranges` to `[]`, set
`completed_up_to = next_offset` and mark the search completed. -/
def processResult (s : SearchState) (r : Nat × Nat) (found : Option Nat) :
    SearchState :=
  if s.completed then s
  else
    let pending := s.pending_ranges.erase r
    let cu := boundary pending s.next_offset
    let best := updateBest s.best_candidate found
    if shouldFinalize best cu then
      { s with pending_ranges := [], completed_up_to := s.next_offset,
               best_candidate := best, completed := true }
    else
      { s with pending_ranges := pending, completed_up_to := cu,
               best_candidate := best }

/-- Process a whole sequence of worker results in arrival order. -/
def processAll (s : SearchState)
    (rs : List ((Nat × Nat) × Option Nat)) : SearchState :=
  rs.foldl (fun t rf => processResult t rf.1 rf.2) s

/-- The final `best_candidate` determined by the arrival sequence alone:
fold every found offset into the initial candidate. -/
def foldBest (b : Option Nat) (rs : List ((Nat × Nat) × Option Nat)) :
    Option Nat :=
  rs.foldl (fun a rf => updateBest a rf.2) b

/-! ## The scheduler's transition relation

`Step s t` holds when one invocation of the orchestrator turns the search
state `s` into `t`:

* `reserve`: the fresh-range branch of `_get_next_task` runs only when the
  search is not completed and (the guards at lines 560-564 and 576-578)
  `next_offset` has not reached an existing best candidate; the width comes
  from the `BatchSizer`, which keeps it at least `MIN_BATCH_SIZE ≥ 1`.
  (The orphan branch, lines 569-573, returns an already-pending range without
  touching the search state, so it is not a transition.)
* `record`: `_process_result` may arrive for an arbitrary range with an
  arbitrary found offset (stale and duplicate deliveries included).
-/
inductive Step : SearchState → SearchState → Prop where
  | reserve (s : SearchState) (w : Nat) (hw : 1 ≤ w)
      (hc : s.completed = false)
      (hb : ∀ b, s.best_candidate = some b → s.next_offset < b) :
      Step s (reserveRange s w)
  | record (s : SearchState) (r : Nat × Nat) (found : Option Nat) :
      Step s (processResult s r found)

/-- States reachable from a fresh search by the orchestrator's reserve and
record operations. -/
inductive Reachable : SearchState → Prop where
  | fresh (n p : Nat) : Reachable (freshSearch n p)
  | step {s t : SearchState} : Reachable s → Step s t → Reachable t

/-! ## Worker scan (`worker_process`, lines 279-329)

The worker tests `gmpy2.is_prime(primorial(n) + m, 25)` for `m` in
`range(start, end)` and stops at the first hit.  The oracle (and the gmpy2
primorial behind `pn`) are external collaborators, so the scan is
parametrised by the predicate `q m = is_prime (pn + m)` it evaluates. -/

/-- The loop `for m in range(start, end): if q m: found_m = m; break`,
with `k` the number of offsets still to test. -/
def scanBatch (q : Nat → Bool) : Nat → Nat → Option Nat
  | _, 0 => none
  | s, k + 1 => if q s then some s else scanBatch q (s + 1) k

/-- The `found_m` reported by `worker_process` for the task `(n, start, e)`:
the offsets `start, start+1, ..., e-1` are scanned in increasing order against
the external primality oracle applied to `primorial(n) + m`. -/
def workerFound (oracle : Nat → Bool) (pn start e : Nat) : Option Nat :=
  scanBatch (fun m => oracle (pn + m)) start (e - start)

/-! ## Adaptive batch sizer (`BatchSizer`, lines 336-379)

Python floats are modelled as exact rationals.  The bounds claim (C10) is
insensitive to the rounding of `current_size * 0.7`: the clamps
`max(·, MIN_BATCH_SIZE)` and `min(·, MAX_BATCH_SIZE)` together with
`int(s * 1.5) ≥ s` and `int(s * 0.7) ≤ s` enforce the bounds for any
rounding of the products.  `int(x)` on a non-negative value is the floor,
written with truncating `Nat` division. -/

def TARGET_BATCH_TIME : Rat := 5
def BATCH_TIME_WINDOW : Nat := 20
def MIN_BATCH_SIZE : Nat := 10
def MAX_BATCH_SIZE : Nat := 5000

structure BatchSizer where
  current_size : Nat
  times : List Rat
deriving DecidableEq, Repr

/-- `deque(maxlen=BATCH_TIME_WINDOW).append`: keep the newest
`BATCH_TIME_WINDOW` samples, evicting the oldest. -/
def pushWindow (ts : List Rat) (q : Rat) : List Rat :=
  let l := ts ++ [q]
  l.drop (l.length - BATCH_TIME_WINDOW)

/-- `BatchSizer.record_batch` (lines 349-370): append the per-candidate time,
then once at least 3 samples exist compare the expected batch time against
the target and grow (`* 1.5`, clamped at `MAX_BATCH_SIZE`) or shrink
(`* 0.7`, clamped at `MIN_BATCH_SIZE`). -/
def record_batch (bs : BatchSizer) (elapsed : Rat) (batch_size : Nat) :
    BatchSizer :=
  let time_per_candidate := elapsed / (max batch_size 1 : Nat)
  let times := pushWindow bs.times time_per_candidate
  if 3 ≤ times.length then
    let avg_time_per_candidate := times.sum / (times.length : Rat)
    let expected_batch_time := avg_time_per_candidate * (bs.current_size : Rat)
    if expected_batch_time < TARGET_BATCH_TIME * (1 / 2) then
      { current_size := min (bs.current_size * 3 / 2) MAX_BATCH_SIZE,
        times := times }
    else if TARGET_BATCH_TIME * (3 / 2) < expected_batch_time then
      { current_size := max (bs.current_size * 7 / 10) MIN_BATCH_SIZE,
        times := times }
    else
      { bs with times := times }
  else
    { bs with times := times }

/-- A whole sequence of `record_batch` calls, each sample an
`(elapsed, batch_size)` pair. -/
def runBatches (bs : BatchSizer) (samples : List (Rat × Nat)) : BatchSizer :=
  samples.foldl (fun b p => record_batch b p.1 p.2) bs

/-! ## Honest executions (for the resume-equivalence claim C5)

In a real run every `record` delivery concerns a range the orchestrator
dispatched (hence a member of `pending_ranges` — within one session each
pending range is claimed by exactly one worker, and after a resume each
orphaned range is re-dispatched once), and its `found_m` is what
`worker_process` computes for that range with the fixed oracle.  `HStep`
restricts `Step` to such deliveries.  A resumed session continues exactly
the interrupted trace: the checkpoint restores the state verbatim (claim C6)
and the orphan branch of `_get_next_task` re-dispatches pending ranges
without modifying the search state. -/

inductive HStep (q : Nat → Bool) : SearchState → SearchState → Prop where
  | reserve (s : SearchState) (w : Nat) (hw : 1 ≤ w)
      (hc : s.completed = false)
      (hb : ∀ b, s.best_candidate = some b → s.next_offset < b) :
      HStep q s (reserveRange s w)
  | record (s : SearchState) (r : Nat × Nat) (hr : r ∈ s.pending_ranges) :
      HStep q s (processResult s r (scanBatch q r.1 (r.2 - r.1)))

/-- States reachable from a fresh search when every worker result is the
honest scan of its range against the fixed oracle `q`. -/
inductive HReach (q : Nat → Bool) : SearchState → Prop where
  | fresh (n p : Nat) : HReach q (freshSearch n p)
  | step {s t : SearchState} : HReach q s → HStep q s t → HReach q t

/-! ## Checkpoint serialization (lines 74-129 and 386-416)

`ExpeditionState.to_dict` / `from_dict` convert between the dataclasses and
the JSON document written by `CheckpointManager.save` and read by `load`.
JSON values are modelled by an inductive (numbers as exact rationals — a
JSON number written by `json.dump` for an `int` or a `float` reads back as
the same value).  `json.dump`/`json.load` and the write-temp-then-rename of
`save` are external; the model composes `to_dict` with `from_dict` on the
JSON value, which is exactly the `load(save(state))` pipeline.  Python's
exceptions are modelled with `Except`: `d[k]` on a missing key raises
`KeyError`, `.items()` on a non-dict raises `AttributeError`, `int(k)` on a
non-numeric string raises `ValueError`, and a value of the wrong shape for a
typed field is reported as `TypeError` (Python's dataclasses do not check
field types at runtime; no claim depends on that corner). -/

inductive PyErr where
  | keyError
  | valueError
  | typeError
  | attributeError
deriving DecidableEq, Repr

inductive Json where
  | null : Json
  | bool (b : Bool) : Json
  | num (q : Rat) : Json
  | str (s : String) : Json
  | arr (elts : List Json) : Json
  | obj (fields : List (String × Json)) : Json

/-- Python `str(n)` for a natural number: the base-10 digits, most
significant first. -/
def digitChar (d : Nat) : Char := Char.ofNat (48 + d)

def natToString (n : Nat) : String :=
  if n = 0 then "0" else String.mk ((Nat.digits 10 n).reverse.map digitChar)

/-- The value of one decimal digit character, `none` for a non-digit. -/
def charVal (c : Char) : Option Nat :=
  if 48 ≤ c.toNat ∧ c.toNat ≤ 57 then some (c.toNat - 48) else none

def charsVal : List Char → Option (List Nat)
  | [] => some []
  | c :: cs =>
    match charVal c, charsVal cs with
    | some d, some ds => some (d :: ds)
    | _, _ => none

/-- Python `int(s)` on the string form of a dictionary key: the decimal value
when every character is a digit, a `ValueError` otherwise. -/
def pyInt (s : String) : Except PyErr Nat :=
  if s.data.isEmpty then .error .valueError
  else
    match charsVal s.data with
    | some ds => .ok (Nat.ofDigits 10 ds.reverse)
    | none => .error .valueError

/-- `d[k]`: `KeyError` when the key is absent. -/
def jGet (l : List (String × Json)) (k : String) : Except PyErr Json :=
  match l.lookup k with
  | some v => .ok v
  | none => .error .keyError

/-- A missing constructor argument in `cls(**d)`: `TypeError`. -/
def jGetF (l : List (String × Json)) (k : String) : Except PyErr Json :=
  match l.lookup k with
  | some v => .ok v
  | none => .error .typeError

def asNat : Json → Except PyErr Nat
  | .num q => if q.den = 1 ∧ 0 ≤ q.num then .ok q.num.toNat else .error .typeError
  | _ => .error .typeError

def asRat : Json → Except PyErr Rat
  | .num q => .ok q
  | _ => .error .typeError

def asBool : Json → Except PyErr Bool
  | .bool b => .ok b
  | _ => .error .typeError

def asOptNat : Json → Except PyErr (Option Nat)
  | .null => .ok none
  | j => (asNat j).map some

/-- `tuple(r)` for a two-element range list. -/
def asPair : Json → Except PyErr (Nat × Nat)
  | .arr [a, b] => do
    let x ← asNat a
    let y ← asNat b
    .ok (x, y)
  | _ => .error .typeError

/-- `.items()`: `AttributeError` on anything but a dict. -/
def asObj : Json → Except PyErr (List (String × Json))
  | .obj l => .ok l
  | _ => .error .attributeError

def asArr : Json → Except PyErr (List Json)
  | .arr l => .ok l
  | _ => .error .typeError

/-- Comprehension over a list, stopping at the first raised error. -/
def mapME (f : α → Except PyErr β) : List α → Except PyErr (List β)
  | [] => .ok []
  | a :: as => do
    let b ← f a
    let bs ← mapME f as
    .ok (b :: bs)

/-- Encoding of an `Optional[int]` field: JSON `null` or a number. -/
def optNatToJson : Option Nat → Json
  | none => .null
  | some b => .num b

/-- Encoding of one `(start, end)` range tuple: a two-element JSON array. -/
def rangeToJson (r : Nat × Nat) : Json := .arr [.num r.1, .num r.2]

/-- `SearchState.to_dict` (line 74): `asdict`, with the range tuples becoming
JSON arrays. -/
def SearchState.toJson (s : SearchState) : Json :=
  .obj [("n", .num s.n), ("p_n_plus_1", .num s.p_n_plus_1),
        ("next_offset", .num s.next_offset),
        ("completed_up_to", .num s.completed_up_to),
        ("pending_ranges", .arr (s.pending_ranges.map rangeToJson)),
        ("best_candidate", optNatToJson s.best_candidate),
        ("completed", .bool s.completed)]

/-- `SearchState.from_dict` (lines 77-81): convert the range lists back to
tuples, then `cls(**d)` — `best_candidate` and `completed` have dataclass
defaults, the other fields are required. -/
def SearchState.fromJson (j : Json) : Except PyErr SearchState := do
  match j with
  | .obj l => do
    let pr :=
      match l.lookup "pending_ranges" with
      | some v => v
      | none => .arr []
    let prl ← asArr pr
    let pending ← mapME asPair prl
    let nn ← jGetF l "n" >>= asNat
    let p ← jGetF l "p_n_plus_1" >>= asNat
    let no ← jGetF l "next_offset" >>= asNat
    let cu ← jGetF l "completed_up_to" >>= asNat
    let bc ←
      match l.lookup "best_candidate" with
      | some v => asOptNat v
      | none => pure none
    let cp ←
      match l.lookup "completed" with
      | some v => asBool v
      | none => pure false
    .ok { n := nn, p_n_plus_1 := p, next_offset := no, completed_up_to := cu,
          pending_ranges := pending, best_candidate := bc, completed := cp }
  | _ => .error .typeError

/-- `ExpeditionState` (lines 94-104): the aggregate that is checkpointed.
Dicts are association lists (`results` and friends are built in insertion
order and compared fieldwise, which subsumes Python's order-insensitive
dict equality). -/
structure ExpeditionState where
  start_n : Nat
  end_n : Nat
  results : List (Nat × Nat)
  result_times : List (Nat × Rat)
  searches : List (Nat × SearchState)
  batch_times : List Rat
  current_batch_size : Nat
  total_elapsed : Rat
deriving DecidableEq, Repr

/-- `ExpeditionState.to_dict` (lines 106-116): integer dict keys become their
string forms. -/
def ExpeditionState.toJson (e : ExpeditionState) : Json :=
  .obj [("start_n", .num e.start_n), ("end_n", .num e.end_n),
        ("results", .obj (e.results.map fun p => (natToString p.1, Json.num p.2))),
        ("result_times",
          .obj (e.result_times.map fun p => (natToString p.1, Json.num p.2))),
        ("searches",
          .obj (e.searches.map fun p => (natToString p.1, SearchState.toJson p.2))),
        ("batch_times", .arr (e.batch_times.map Json.num)),
        ("current_batch_size", .num e.current_batch_size),
        ("total_elapsed", .num e.total_elapsed)]

/-- `ExpeditionState.from_dict` (lines 118-129): `d[...]` lookups may raise
`KeyError`, `int(k)` on each dict key may raise `ValueError`. -/
def ExpeditionState.fromJson (j : Json) : Except PyErr ExpeditionState := do
  match j with
  | .obj l => do
    let sn ← jGet l "start_n" >>= asNat
    let en ← jGet l "end_n" >>= asNat
    let res ← jGet l "results" >>= asObj >>=
      mapME (fun p => do
        let k ← pyInt p.1
        let v ← asNat p.2
        .ok (k, v))
    let rts ← jGet l "result_times" >>= asObj >>=
      mapME (fun p => do
        let k ← pyInt p.1
        let v ← asRat p.2
        .ok (k, v))
    let srch ← jGet l "searches" >>= asObj >>=
      mapME (fun p => do
        let k ← pyInt p.1
        let v ← SearchState.fromJson p.2
        .ok (k, v))
    let bt ← jGet l "batch_times" >>= asArr >>= mapME asRat
    let cbs ← jGet l "current_batch_size" >>= asNat
    let te ← jGet l "total_elapsed" >>= asRat
    .ok { start_n := sn, end_n := en, results := res, result_times := rts,
          searches := srch, batch_times := bt, current_batch_size := cbs,
          total_elapsed := te }
  | _ => .error .typeError

/-! ## Checkpoint loading and orchestrator startup (lines 399-409, 447-463) -/

/-- What `CheckpointManager.load` finds on disk: no file, a file `json.load`
rejects (`JSONDecodeError`), or a file that decodes to a JSON value. -/
inductive CheckpointContent where
  | absent
  | undecodable
  | decoded (j : Json)

/-- `CheckpointManager.exists` (line 411). -/
def existsC : CheckpointContent → Bool
  | .absent => false
  | _ => true

/-- `CheckpointManager.load` (lines 399-409): `None` for a missing file;
`except (json.JSONDecodeError, KeyError)` turns exactly those two failures
into `None`; any other exception raised by `from_dict` propagates. -/
def loadModel (c : CheckpointContent) : Except PyErr (Option ExpeditionState) :=
  match c with
  | .absent => .ok none
  | .undecodable => .ok none
  | .decoded j =>
    match ExpeditionState.fromJson j with
    | .ok s => .ok (some s)
    | .error .keyError => .ok none
    | .error e => .error e

/-- `Expedition._create_initial_state` (lines 488-510), parametrised by the
external `compute_nth_prime` helper (`p_n_plus_1 = nthPrime (n+1)`). -/
def createInitialState (nthPrime : Nat → Nat) (sn en : Nat) : ExpeditionState :=
  { start_n := sn, end_n := en, results := [], result_times := [],
    searches := (List.range' sn (en + 1 - sn)).map
      (fun n => (n, freshSearch n (nthPrime (n + 1)))),
    batch_times := [], current_batch_size := 100, total_elapsed := 0 }

/-- State initialization in `Expedition.__init__` (lines 447-463): on
`--resume` with an existing checkpoint, `load()`; a loaded state is used only
when its index range matches, otherwise (including `load()` returning `None`)
a fresh state is created.  An exception escaping `load()` aborts startup. -/
def initStateModel (nthPrime : Nat → Nat) (resume : Bool)
    (c : CheckpointContent) (sn en : Nat) : Except PyErr ExpeditionState :=
  if resume && existsC c then do
    let loaded ← loadModel c
    match loaded with
    | some st =>
      if st.start_n = sn ∧ st.end_n = en then .ok st
      else .ok (createInitialState nthPrime sn en)
    | none => .ok (createInitialState nthPrime sn en)
  else
    .ok (createInitialState nthPrime sn en)

/-! ## Elementary facts about the minimum pending start -/

theorem foldl_min_le_init :
    ∀ (l : List (Nat × Nat)) (a : Nat),
      l.foldl (fun acc x => min acc x.1) a ≤ a := by
  intro l
  induction l with
  | nil => intro a; simp
  | cons x xs ih =>
    intro a
    simpa using le_trans (ih (min a x.1)) (Nat.min_le_left _ _)

theorem foldl_min_le_mem :
    ∀ (l : List (Nat × Nat)) (a : Nat) (x : Nat × Nat), x ∈ l →
      l.foldl (fun acc y => min acc y.1) a ≤ x.1 := by
  intro l
  induction l with
  | nil => intro a x hx; cases hx
  | cons y ys ih =>
    intro a x hx
    rcases List.mem_cons.mp hx with h | h
    · subst h
      simpa using le_trans (foldl_min_le_init ys (min a x.1))
        (Nat.min_le_right _ _)
    · simpa using ih (min a y.1) x h

theorem foldl_min_eq_or :
    ∀ (l : List (Nat × Nat)) (a : Nat),
      l.foldl (fun acc x => min acc x.1) a = a ∨
        ∃ x ∈ l, l.foldl (fun acc y => min acc y.1) a = x.1 := by
  intro l
  induction l with
  | nil => intro a; left; rfl
  | cons y ys ih =>
    intro a
    rcases ih (min a y.1) with h | ⟨x, hx, hfx⟩
    · rcases Nat.le_total a y.1 with hle | hle
      · left; simpa [Nat.min_eq_left hle] using h
      · right
        exact ⟨y, List.mem_cons_self y ys, by simpa [Nat.min_eq_right hle] using h⟩
    · right
      exact ⟨x, List.mem_cons_of_mem y hx, by simpa using hfx⟩

theorem minStart_le {l : List (Nat × Nat)} {x : Nat × Nat} (hx : x ∈ l) :
    minStart l ≤ x.1 := by
  cases l with
  | nil => cases hx
  | cons y ys =>
    rcases List.mem_cons.mp hx with h | h
    · subst h
      exact le_trans (foldl_min_le_init ys x.1) le_rfl
    · exact foldl_min_le_mem ys y.1 x h

theorem minStart_mem {l : List (Nat × Nat)} (h : l ≠ []) :
    ∃ x ∈ l, minStart l = x.1 := by
  cases l with
  | nil => exact absurd rfl h
  | cons y ys =>
    rcases foldl_min_eq_or ys y.1 with h0 | ⟨x, hx, hfx⟩
    · exact ⟨y, List.mem_cons_self y ys, h0⟩
    · exact ⟨x, List.mem_cons_of_mem y hx, hfx⟩

theorem minStart_append_of_le {l : List (Nat × Nat)} {v w : Nat}
    (h : l ≠ []) (hall : ∀ x ∈ l, x.1 ≤ v) :
    minStart (l ++ [(v, w)]) = minStart l := by
  apply Nat.le_antisymm
  · rcases minStart_mem h with ⟨x, hx, hfx⟩
    rw [hfx]
    exact minStart_le (List.mem_append_left _ hx)
  · rcases minStart_mem (l := l ++ [(v, w)]) (by simp) with ⟨y, hy, hfy⟩
    rw [hfy]
    rcases List.mem_append.mp hy with hy | hy
    · exact minStart_le hy
    · rcases minStart_mem h with ⟨x, hx, hfx⟩
      simp only [List.mem_singleton] at hy
      subst hy
      rw [hfx]
      exact hall x hx

theorem boundary_le_next {l : List (Nat × Nat)} {N : Nat}
    (hall : ∀ x ∈ l, x.1 ≤ N) : boundary l N ≤ N := by
  unfold boundary
  split
  · exact le_rfl
  · next h =>
    rcases minStart_mem (l := l) (by simpa [List.isEmpty_iff] using h) with ⟨x, hx, hfx⟩
    exact hfx ▸ hall x hx

/-! ## The reachable-state invariant

Everything claims C1, C3, C7 and C9 need about reachable search states,
proved together by induction over `Reachable`. -/

structure Inv (s : SearchState) : Prop where
  bound : s.completed_up_to = boundary s.pending_ranges s.next_offset
  comp_iff : s.completed = true ↔
    ∃ b, s.best_candidate = some b ∧ b ≤ s.completed_up_to
  ranges : ∀ r ∈ s.pending_ranges,
    s.p_n_plus_1 ≤ r.1 ∧ r.1 < r.2 ∧ r.2 ≤ s.next_offset
  low : s.p_n_plus_1 ≤ s.next_offset
  sorted : s.pending_ranges.Pairwise (fun r t => r.2 ≤ t.1)
  comp_pending : s.completed = true → s.pending_ranges = []

theorem Inv.cu_le_next {s : SearchState} (h : Inv s) :
    s.completed_up_to ≤ s.next_offset := by
  rw [h.bound]
  exact boundary_le_next fun x hx => le_of_lt
    (lt_of_lt_of_le (h.ranges x hx).2.1 (h.ranges x hx).2.2)

theorem Inv.cu_le_start {s : SearchState} (h : Inv s) :
    ∀ r ∈ s.pending_ranges, s.completed_up_to ≤ r.1 := by
  intro r hr
  rw [h.bound]
  have hne : ¬s.pending_ranges.isEmpty := by
    simp [List.isEmpty_iff]
    exact List.ne_nil_of_mem hr
  unfold boundary
  rw [if_neg hne]
  exact minStart_le hr

theorem inv_fresh (n p : Nat) : Inv (freshSearch n p) := by
  refine ⟨?_, ?_, ?_, ?_, ?_, ?_⟩ <;> simp [freshSearch, boundary]

theorem inv_reserve {s : SearchState} (h : Inv s) (w : Nat) (hw : 1 ≤ w)
    (hc : s.completed = false) : Inv (reserveRange s w) := by
  constructor
  · show s.completed_up_to = boundary (s.pending_ranges ++ [(s.next_offset, s.next_offset + w)]) (s.next_offset + w)
    unfold boundary
    rw [if_neg (by simp)]
    cases hp : s.pending_ranges with
    | nil =>
      have := h.bound
      rw [hp] at this
      simp [boundary] at this
      simp [hp, minStart, this]
    | cons y ys =>
      rw [← hp]
      rw [minStart_append_of_le (by simp [hp])
        (fun x hx => le_of_lt (lt_of_lt_of_le (h.ranges x hx).2.1 (h.ranges x hx).2.2))]
      have := h.bound
      unfold boundary at this
      rw [if_neg (by simp [hp])] at this
      exact this
  · show s.completed = true ↔ ∃ b, s.best_candidate = some b ∧ b ≤ s.completed_up_to
    exact h.comp_iff
  · intro r hr
    rcases List.mem_append.mp hr with hr | hr
    · obtain ⟨h1, h2, h3⟩ := h.ranges r hr
      exact ⟨h1, h2, le_trans h3 (Nat.le_add_right _ _)⟩
    · simp only [List.mem_singleton] at hr
      subst hr
      exact ⟨h.low, by omega, le_rfl⟩
  · exact le_trans h.low (Nat.le_add_right _ _)
  · apply List.pairwise_append.mpr
    refine ⟨h.sorted, by simp, ?_⟩
    intro r hr t ht
    simp only [List.mem_singleton] at ht
    subst ht
    exact (h.ranges r hr).2.2
  · intro hcomp
    exact absurd hcomp (by simp [reserveRange, hc])

theorem inv_record {s : SearchState} (h : Inv s) (r : Nat × Nat)
    (found : Option Nat) : Inv (processResult s r found) := by
  unfold processResult
  by_cases hc : s.completed
  · rw [if_pos hc]; exact h
  · rw [if_neg hc]
    simp only []
    set pending := s.pending_ranges.erase r with hpend
    set cu := boundary pending s.next_offset with hcu
    set best := updateBest s.best_candidate found with hbest
    have hsub : ∀ x ∈ pending, x ∈ s.pending_ranges := by
      intro x hx; exact List.mem_of_mem_erase hx
    have hcu_le : cu ≤ s.next_offset := by
      rw [hcu]
      exact boundary_le_next fun x hx => le_of_lt
        (lt_of_lt_of_le (h.ranges x (hsub x hx)).2.1 (h.ranges x (hsub x hx)).2.2)
    by_cases hf : shouldFinalize best cu
    · rw [if_pos hf]
      have hb : ∃ b, best = some b ∧ b ≤ cu := by
        unfold shouldFinalize at hf
        cases hbb : best with
        | none => rw [hbb] at hf; simp at hf
        | some b =>
          rw [hbb] at hf
          exact ⟨b, rfl, by simpa using hf⟩
      rcases hb with ⟨b, hb1, hb2⟩
      constructor
      · simp [boundary]
      · simp only []
        constructor
        · intro _; exact ⟨b, hb1, le_trans hb2 hcu_le⟩
        · intro _; trivial
      · intro x hx; cases hx
      · exact h.low
      · simp
      · intro _; rfl
    · rw [if_neg hf]
      constructor
      · rfl
      · simp only []
        constructor
        · intro hfalse
          exact absurd hfalse (by simpa using hc)
        · rintro ⟨b, hb1, hb2⟩
          exfalso
          apply hf
          unfold shouldFinalize
          rw [hb1]
          simpa using hb2
      · intro x hx
        obtain ⟨h1, h2, h3⟩ := h.ranges x (hsub x hx)
        exact ⟨h1, h2, h3⟩
      · exact h.low
      · exact h.sorted.sublist (List.erase_sublist r s.pending_ranges)
      · intro hfalse
        exact absurd hfalse (by simpa using hc)

theorem reachable_inv {s : SearchState} (h : Reachable s) : Inv s := by
  induction h with
  | fresh n p => exact inv_fresh n p
  | step _ hstep ih =>
    cases hstep with
    | reserve w hw hc hb => exact inv_reserve ih w hw hc
    | record r found => exact inv_record ih r found

/-! ## Monotonicity of the confirmed boundary (C3 core) -/

theorem minStart_le_of_subset {l t : List (Nat × Nat)} (ht : t ≠ [])
    (hsub : ∀ x ∈ t, x ∈ l) : minStart l ≤ minStart t := by
  rcases minStart_mem ht with ⟨x, hx, hfx⟩
  rw [hfx]
  exact minStart_le (hsub x hx)

theorem cu_mono_step {s t : SearchState} (hInv : Inv s) (hstep : Step s t) :
    s.completed_up_to ≤ t.completed_up_to := by
  cases hstep with
  | reserve w hw hc hb => exact le_rfl
  | record r found =>
    unfold processResult
    by_cases hc : s.completed
    · rw [if_pos hc]
    · rw [if_neg hc]
      simp only []
      by_cases hf : shouldFinalize (updateBest s.best_candidate found)
          (boundary (s.pending_ranges.erase r) s.next_offset)
      · rw [if_pos hf]
        exact hInv.cu_le_next
      · rw [if_neg hf]
        show s.completed_up_to ≤ boundary (s.pending_ranges.erase r) s.next_offset
        unfold boundary
        split
        · exact hInv.cu_le_next
        · next hne =>
          have hne2 : s.pending_ranges.erase r ≠ [] := by
            simpa [List.isEmpty_iff] using hne
          rcases minStart_mem hne2 with ⟨x, hx, hfx⟩
          rw [hfx]
          exact hInv.cu_le_start x (List.mem_of_mem_erase hx)

/-! ## Order-independence of result processing (C2 core) -/

theorem perm_cons_erase_here {a : Nat × Nat} {l : List (Nat × Nat)}
    (h : a ∈ l) : l.Perm (a :: l.erase a) := by
  induction l with
  | nil => cases h
  | cons b bs ih =>
    rcases List.mem_cons.mp h with hba | hmem
    · subst hba
      rw [List.erase_cons_head]
    · by_cases hba : b = a
      · subst hba
        rw [List.erase_cons_head]
      · rw [List.erase_cons, if_neg (by simpa using hba)]
        exact ((ih hmem).cons b).trans (List.Perm.swap a b (bs.erase a))

theorem perm_erase_of_cons_perm {a : Nat × Nat}
    {l1 l2 : List (Nat × Nat)} (h : (a :: l1).Perm l2) :
    l1.Perm (l2.erase a) := by
  have ha : a ∈ l2 := h.subset (List.mem_cons_self a l1)
  exact (h.trans (perm_cons_erase_here ha)).cons_inv

theorem processResult_completed {s : SearchState} (hc : s.completed = true)
    (r : Nat × Nat) (found : Option Nat) : processResult s r found = s := by
  unfold processResult
  rw [if_pos hc]

theorem processAll_completed {s : SearchState} (hc : s.completed = true) :
    ∀ rs, processAll s rs = s := by
  intro rs
  induction rs with
  | nil => rfl
  | cons rf rest ih =>
    show processAll (processResult s rf.1 rf.2) rest = s
    rw [processResult_completed hc]
    exact ih

theorem updateBest_some_some (a m : Nat) :
    updateBest (some a) (some m) = some (min a m) := by
  simp only [updateBest]
  split
  · next h => rw [Nat.min_eq_right (le_of_lt h)]
  · next h => rw [Nat.min_eq_left (by omega)]

theorem updateBest_comm (z f g : Option Nat) :
    updateBest (updateBest z f) g = updateBest (updateBest z g) f := by
  cases f with
  | none => cases g <;> rfl
  | some m =>
    cases g with
    | none => rfl
    | some k =>
      cases z with
      | none =>
        rw [show updateBest none (some m) = some m from rfl,
            show updateBest none (some k) = some k from rfl,
            updateBest_some_some, updateBest_some_some, Nat.min_comm]
      | some a =>
        rw [updateBest_some_some, updateBest_some_some,
            updateBest_some_some, updateBest_some_some]
        rw [Nat.min_assoc, Nat.min_assoc, Nat.min_comm m k]

theorem foldBest_perm {rs1 rs2 : List ((Nat × Nat) × Option Nat)}
    (h : rs1.Perm rs2) (b : Option Nat) : foldBest b rs1 = foldBest b rs2 :=
  h.foldl_eq' (fun x _ y _ z => updateBest_comm z x.2 y.2) b

theorem foldBest_of_ge {b : Nat} {rs : List ((Nat × Nat) × Option Nat)}
    (h : ∀ rf ∈ rs, ∀ m, rf.2 = some m → b ≤ m) :
    foldBest (some b) rs = some b := by
  induction rs with
  | nil => rfl
  | cons rf rest ih =>
    show foldBest (updateBest (some b) rf.2) rest = some b
    have hb : updateBest (some b) rf.2 = some b := by
      cases hf : rf.2 with
      | none => rfl
      | some m =>
        have := h rf (List.mem_cons_self rf rest) m hf
        rw [updateBest_some_some]
        simp [Nat.min_eq_left this]
    rw [hb]
    exact ih fun rf2 h2 => h rf2 (List.mem_cons_of_mem rf h2)

theorem processResult_next (s : SearchState) (r : Nat × Nat)
    (found : Option Nat) : (processResult s r found).next_offset = s.next_offset := by
  unfold processResult
  by_cases hc : s.completed
  · rw [if_pos hc]
  · rw [if_neg hc]
    simp only []
    by_cases hf : shouldFinalize (updateBest s.best_candidate found)
        (boundary (s.pending_ranges.erase r) s.next_offset)
    · rw [if_pos hf]
    · rw [if_neg hf]

theorem processAll_formula :
    ∀ (rs : List ((Nat × Nat) × Option Nat)) (s : SearchState),
      s.completed = false →
      (rs.map Prod.fst).Perm s.pending_ranges →
      (∀ rf ∈ rs, ∀ m, rf.2 = some m → rf.1.1 ≤ m ∧ m < rf.1.2) →
      (∀ r ∈ s.pending_ranges, r.2 ≤ s.next_offset) →
      (processAll s rs).best_candidate = foldBest s.best_candidate rs ∧
      (processAll s rs).completed_up_to =
        (if rs.isEmpty then s.completed_up_to else s.next_offset) := by
  intro rs
  induction rs with
  | nil =>
    intro s hc hperm hfound hend
    exact ⟨rfl, rfl⟩
  | cons rf rest ih =>
    intro s hc hperm hfound hend
    have hperm2 : (rf.1 :: rest.map Prod.fst).Perm s.pending_ranges := by
      simpa using hperm
    have hmem : rf.1 ∈ s.pending_ranges :=
      hperm2.subset (List.mem_cons_self rf.1 (rest.map Prod.fst))
    have hrest_perm : (rest.map Prod.fst).Perm (s.pending_ranges.erase rf.1) :=
      perm_erase_of_cons_perm hperm2
    have hstep : processAll s (rf :: rest) =
        processAll (processResult s rf.1 rf.2) rest := rfl
    rw [hstep]
    have hfold : foldBest s.best_candidate (rf :: rest) =
        foldBest (updateBest s.best_candidate rf.2) rest := rfl
    rw [hfold]
    unfold processResult
    rw [if_neg (by simpa using hc)]
    simp only []
    set pending1 := s.pending_ranges.erase rf.1 with hpend1
    set cu1 := boundary pending1 s.next_offset with hcu1
    set best1 := updateBest s.best_candidate rf.2 with hbest1
    have hmem_rest : ∀ rf2 ∈ rest, rf2.1 ∈ pending1 := by
      intro rf2 h2
      exact hrest_perm.subset (List.mem_map_of_mem Prod.fst h2)
    by_cases hf : shouldFinalize best1 cu1
    · rw [if_pos hf]
      obtain ⟨b1, hb1, hble⟩ : ∃ b1, best1 = some b1 ∧ b1 ≤ cu1 := by
        unfold shouldFinalize at hf
        cases hbb : best1 with
        | none => rw [hbb] at hf; simp at hf
        | some b => rw [hbb] at hf; exact ⟨b, rfl, by simpa using hf⟩
      rw [processAll_completed rfl]
      constructor
      · show best1 = foldBest best1 rest
        rw [hb1]
        symm
        apply foldBest_of_ge
        intro rf2 h2 m hm
        have h1 : rf2.1.1 ≤ m :=
          (hfound rf2 (List.mem_cons_of_mem rf h2) m hm).1
        have h3 : cu1 ≤ rf2.1.1 := by
          rw [hcu1]
          unfold boundary
          rw [if_neg (by
            simp only [List.isEmpty_iff]
            exact List.ne_nil_of_mem (hmem_rest rf2 h2))]
          exact minStart_le (hmem_rest rf2 h2)
        omega
      · simp
    · rw [if_neg hf]
      have hend1 : ∀ r ∈ pending1, r.2 ≤ s.next_offset := by
        intro r hr
        exact hend r (List.mem_of_mem_erase hr)
      have hres := ih
        { s with pending_ranges := pending1, completed_up_to := cu1,
                 best_candidate := best1 }
        (by simpa using hc) (by simpa using hrest_perm)
        (fun rf2 h2 m hm => hfound rf2 (List.mem_cons_of_mem rf h2) m hm)
        (by simpa using hend1)
      refine ⟨hres.1, ?_⟩
      rw [hres.2]
      cases hrest : rest with
      | nil =>
        have hnil : pending1 = [] := by
          have := hrest_perm
          rw [hrest] at this
          exact (List.Perm.nil_eq this).symm
        simp only [hrest, List.isEmpty_nil, if_true, List.isEmpty_cons, if_false]
        show cu1 = s.next_offset
        rw [hcu1, hnil]
        rfl
      | cons a rest2 => simp

/-! ## Worker-scan lemmas (C4 core, reused by C5) -/

theorem scanBatch_eq_none {q : Nat → Bool} :
    ∀ (k s : Nat), scanBatch q s k = none ↔
      ∀ m, s ≤ m → m < s + k → q m = false := by
  intro k
  induction k with
  | zero =>
    intro s
    constructor
    · intro _ m h1 h2; omega
    · intro _; rfl
  | succ k ih =>
    intro s
    unfold scanBatch
    by_cases hq : q s
    · rw [if_pos hq]
      constructor
      · intro h; cases h
      · intro h
        have := h s le_rfl (by omega)
        rw [hq] at this
        cases this
    · rw [if_neg hq]
      rw [ih (s + 1)]
      constructor
      · intro h m h1 h2
        by_cases hm : m = s
        · subst hm; simpa using hq
        · exact h m (by omega) (by omega)
      · intro h m h1 h2
        exact h m (by omega) (by omega)

theorem scanBatch_eq_some {q : Nat → Bool} :
    ∀ (k s m : Nat), scanBatch q s k = some m →
      s ≤ m ∧ m < s + k ∧ q m = true ∧
        ∀ j, s ≤ j → j < m → q j = false := by
  intro k
  induction k with
  | zero => intro s m h; cases h
  | succ k ih =>
    intro s m h
    unfold scanBatch at h
    by_cases hq : q s
    · rw [if_pos hq] at h
      injection h with h
      subst h
      exact ⟨le_rfl, by omega, hq, fun j h1 h2 => by omega⟩
    · rw [if_neg hq] at h
      obtain ⟨h1, h2, h3, h4⟩ := ih (s + 1) m h
      refine ⟨by omega, by omega, h3, ?_⟩
      intro j hj1 hj2
      by_cases hj : j = s
      · subst hj; simpa using hq
      · exact h4 j (by omega) hj2

/-! ## Soundness of honest executions (C5 core)

Along a run whose results are honest worker scans, the best candidate is a
qualifying offset and every offset that is below both the confirmed frontier
and the best candidate is known non-qualifying. -/

def belowBest : Option Nat → Nat → Prop
  | none, _ => True
  | some b, m => m < b

structure SInv (q : Nat → Bool) (s : SearchState) : Prop where
  best_sound : ∀ b, s.best_candidate = some b → q b = true ∧ s.p_n_plus_1 ≤ b
  cover : ∀ m, s.p_n_plus_1 ≤ m → m < s.next_offset →
    (∀ r ∈ s.pending_ranges, ¬(r.1 ≤ m ∧ m < r.2)) →
    belowBest s.best_candidate m → q m = false

theorem updateBest_eq_some {b f : Option Nat} {b1 : Nat}
    (h : updateBest b f = some b1) : b = some b1 ∨ f = some b1 := by
  cases f with
  | none => left; exact h
  | some m =>
    cases b with
    | none => right; exact h
    | some a =>
      rw [updateBest_some_some] at h
      injection h with h
      rcases Nat.le_total a m with h1 | h1
      · left; rw [← h, Nat.min_eq_left h1]
      · right; rw [← h, Nat.min_eq_right h1]

theorem updateBest_le_found {b : Option Nat} {m0 b1 : Nat}
    (h : updateBest b (some m0) = some b1) : b1 ≤ m0 := by
  cases b with
  | none =>
    injection h with h
    omega
  | some a =>
    rw [updateBest_some_some] at h
    injection h with h
    omega

theorem updateBest_le_old {a : Nat} {f : Option Nat} {b1 : Nat}
    (h : updateBest (some a) f = some b1) : b1 ≤ a := by
  cases f with
  | none => injection h with h; omega
  | some m =>
    rw [updateBest_some_some] at h
    injection h with h
    omega

theorem updateBest_found_ne_none (b : Option Nat) (m0 : Nat) :
    updateBest b (some m0) ≠ none := by
  cases b with
  | none => intro h; cases h
  | some a => rw [updateBest_some_some]; intro h; cases h

theorem updateBest_some_ne_none (a : Nat) (f : Option Nat) :
    updateBest (some a) f ≠ none := by
  cases f with
  | none => intro h; cases h
  | some m => rw [updateBest_some_some]; intro h; cases h

theorem sinv_fresh (q : Nat → Bool) (n p : Nat) : SInv q (freshSearch n p) := by
  constructor
  · intro b hb; cases hb
  · intro m h1 h2 _ _
    exfalso
    simp only [freshSearch] at h1 h2
    omega

theorem sinv_reserve {q : Nat → Bool} {s : SearchState} (h : SInv q s)
    (w : Nat) : SInv q (reserveRange s w) := by
  constructor
  · intro b hb
    exact h.best_sound b hb
  · intro m h1 h2 h3 h4
    have h1s : s.p_n_plus_1 ≤ m := h1
    have h2s : m < s.next_offset + w := h2
    have hnew := h3 (s.next_offset, s.next_offset + w)
      (List.mem_append_right _ (List.mem_singleton_self _))
    have hmN : m < s.next_offset := by
      rcases Nat.lt_or_ge m s.next_offset with hlt | hge
      · exact hlt
      · exact absurd ⟨hge, h2s⟩ hnew
    exact h.cover m h1s hmN
      (fun r hr => h3 r (List.mem_append_left _ hr)) h4

theorem sinv_record {q : Nat → Bool} {s : SearchState} (h : SInv q s)
    (hInv : Inv s) {r : Nat × Nat} (hr : r ∈ s.pending_ranges) :
    SInv q (processResult s r (scanBatch q r.1 (r.2 - r.1))) := by
  set f := scanBatch q r.1 (r.2 - r.1) with hfdef
  obtain ⟨hpr, hrlt, hrN⟩ := hInv.ranges r hr
  have hksplit : r.1 + (r.2 - r.1) = r.2 := by omega
  have hscan_none : f = none → ∀ m, r.1 ≤ m → m < r.2 → q m = false := by
    intro hf m h1 h2
    exact (scanBatch_eq_none (r.2 - r.1) r.1).mp hf m h1 (by omega)
  have hscan_some : ∀ m0, f = some m0 →
      r.1 ≤ m0 ∧ m0 < r.2 ∧ q m0 = true ∧
        ∀ j, r.1 ≤ j → j < m0 → q j = false := by
    intro m0 hf
    obtain ⟨a1, a2, a3, a4⟩ := scanBatch_eq_some (r.2 - r.1) r.1 m0 hf
    exact ⟨a1, by omega, a3, a4⟩
  unfold processResult
  by_cases hc : s.completed
  · rw [if_pos hc]; exact h
  · rw [if_neg hc]
    simp only []
    set pending1 := s.pending_ranges.erase r with hpend1
    set cu1 := boundary pending1 s.next_offset with hcu1
    set best1 := updateBest s.best_candidate f with hbest1
    have hbest_sound1 : ∀ b, best1 = some b → q b = true ∧ s.p_n_plus_1 ≤ b := by
      intro b hb
      rcases updateBest_eq_some (hbest1 ▸ hb) with hold | hnew
      · exact h.best_sound b hold
      · obtain ⟨a1, a2, a3, _⟩ := hscan_some b hnew
        exact ⟨a3, le_trans hpr a1⟩
    have hfrom_r : ∀ m, r.1 ≤ m → m < r.2 → belowBest best1 m → q m = false := by
      intro m h1 h2 h3
      cases hf : f with
      | none => exact hscan_none hf m h1 h2
      | some m0 =>
        obtain ⟨a1, a2, a3, a4⟩ := hscan_some m0 hf
        by_cases hcmp : m < m0
        · exact a4 m h1 hcmp
        · exfalso
          cases hb1 : best1 with
          | none =>
            rw [hbest1, hf] at hb1
            exact absurd hb1 (updateBest_found_ne_none _ m0)
          | some b1 =>
            have hle : b1 ≤ m0 := updateBest_le_found (hf ▸ hbest1 ▸ hb1)
            rw [hb1] at h3
            unfold belowBest at h3
            omega
    have hbelow_old : ∀ m, belowBest best1 m → belowBest s.best_candidate m := by
      intro m hm
      cases hb : s.best_candidate with
      | none => trivial
      | some a =>
        cases hb1 : best1 with
        | none =>
          exfalso
          rw [hbest1, hb] at hb1
          exact absurd hb1 (updateBest_some_ne_none a f)
        | some b1 =>
          have : b1 ≤ a := updateBest_le_old (hb ▸ hbest1 ▸ hb1)
          rw [hb1] at hm
          unfold belowBest at hm ⊢
          omega
    by_cases hfin : shouldFinalize best1 cu1
    · rw [if_pos hfin]
      obtain ⟨b1, hb1, hble⟩ : ∃ b1, best1 = some b1 ∧ b1 ≤ cu1 := by
        unfold shouldFinalize at hfin
        cases hbb : best1 with
        | none => rw [hbb] at hfin; simp at hfin
        | some b => rw [hbb] at hfin; exact ⟨b, rfl, by simpa using hfin⟩
      constructor
      · exact hbest_sound1
      · intro m h1 h2 _ h4
        by_cases hin : ∃ r2 ∈ s.pending_ranges, r2.1 ≤ m ∧ m < r2.2
        · obtain ⟨r2, hr2, hm1, hm2⟩ := hin
          by_cases heq : r2 = r
          · subst heq
            exact hfrom_r m hm1 hm2 h4
          · exfalso
            have hr2p : r2 ∈ pending1 := by
              rw [hpend1]
              exact (List.mem_erase_of_ne heq).mpr hr2
            have hstart : cu1 ≤ r2.1 := by
              rw [hcu1]
              unfold boundary
              rw [if_neg (by
                simp only [List.isEmpty_iff]
                exact List.ne_nil_of_mem hr2p)]
              exact minStart_le hr2p
            rw [hb1] at h4
            unfold belowBest at h4
            omega
        · push_neg at hin
          exact h.cover m h1 h2 (fun r2 hr2 => by
            have := hin r2 hr2
            omega) (hbelow_old m h4)
    · rw [if_neg hfin]
      constructor
      · exact hbest_sound1
      · intro m h1 h2 h3 h4
        by_cases hin : ∃ r2 ∈ s.pending_ranges, r2.1 ≤ m ∧ m < r2.2
        · obtain ⟨r2, hr2, hm1, hm2⟩ := hin
          by_cases heq : r2 = r
          · subst heq
            exact hfrom_r m hm1 hm2 h4
          · exfalso
            have hr2p : r2 ∈ pending1 := by
              rw [hpend1]
              exact (List.mem_erase_of_ne heq).mpr hr2
            exact h3 r2 hr2p ⟨hm1, hm2⟩
        · push_neg at hin
          exact h.cover m h1 h2 (fun r2 hr2 => by
            have := hin r2 hr2
            omega) (hbelow_old m h4)

theorem hstep_step {q : Nat → Bool} {s t : SearchState} (h : HStep q s t) :
    Step s t := by
  cases h with
  | reserve w hw hc hb => exact Step.reserve s w hw hc hb
  | record r hr => exact Step.record s r (scanBatch q r.1 (r.2 - r.1))

theorem hreach_reachable {q : Nat → Bool} {s : SearchState}
    (h : HReach q s) : Reachable s := by
  induction h with
  | fresh n p => exact Reachable.fresh n p
  | step _ hstep ih => exact Reachable.step ih (hstep_step hstep)

theorem hreach_sinv {q : Nat → Bool} {s : SearchState} (h : HReach q s) :
    SInv q s := by
  induction h with
  | fresh n p => exact sinv_fresh q n p
  | step hre hstep ih =>
    cases hstep with
    | reserve w hw hc hb => exact sinv_reserve ih w
    | record r hr => exact sinv_record ih (reachable_inv (hreach_reachable hre)) hr

/-- A completed honest search holds the least qualifying offset at or above
its lower bound. -/
theorem completed_answer {q : Nat → Bool} {s : SearchState}
    (hq : HReach q s) (hc : s.completed = true) :
    ∃ b, s.best_candidate = some b ∧ q b = true ∧ s.p_n_plus_1 ≤ b ∧
      ∀ m, s.p_n_plus_1 ≤ m → m < b → q m = false := by
  have hInv := reachable_inv (hreach_reachable hq)
  have hS := hreach_sinv hq
  obtain ⟨b, hb, hble⟩ := hInv.comp_iff.mp hc
  obtain ⟨hqb, hpb⟩ := hS.best_sound b hb
  refine ⟨b, hb, hqb, hpb, ?_⟩
  intro m h1 h2
  have hmN : m < s.next_offset :=
    lt_of_lt_of_le h2 (le_trans hble hInv.cu_le_next)
  apply hS.cover m h1 hmN
  · intro r hr
    rw [hInv.comp_pending hc] at hr
    cases hr
  · rw [hb]
    exact h2

/-! ## Checkpoint round-trip lemmas (C6 core) -/

theorem ok_bind {α β : Type} (a : α) (f : α → Except PyErr β) :
    (Except.ok a >>= f) = f a := rfl

theorem charVal_digitChar {d : Nat} (hd : d < 10) :
    charVal (digitChar d) = some d := by
  interval_cases d <;> rfl

theorem charsVal_map_digitChar {ds : List Nat} (h : ∀ d ∈ ds, d < 10) :
    charsVal (ds.map digitChar) = some ds := by
  induction ds with
  | nil => rfl
  | cons d rest ih =>
    show charsVal (digitChar d :: rest.map digitChar) = some (d :: rest)
    unfold charsVal
    rw [charVal_digitChar (h d (List.mem_cons_self d rest)),
        ih (fun x hx => h x (List.mem_cons_of_mem d hx))]

theorem pyInt_natToString (n : Nat) : pyInt (natToString n) = .ok n := by
  by_cases hn : n = 0
  · subst hn; rfl
  · unfold natToString
    rw [if_neg hn]
    unfold pyInt
    have hdig : Nat.digits 10 n ≠ [] := Nat.digits_ne_nil_iff_ne_zero.mpr hn
    have hdata : (String.mk ((Nat.digits 10 n).reverse.map digitChar)).data =
        (Nat.digits 10 n).reverse.map digitChar := rfl
    rw [hdata]
    rw [if_neg (by
      simp only [List.isEmpty_eq_true, List.map_eq_nil_iff, List.reverse_eq_nil_iff]
      exact hdig)]
    rw [charsVal_map_digitChar (fun d hd =>
      Nat.digits_lt_base (by norm_num) (List.mem_reverse.mp hd))]
    show Except.ok (Nat.ofDigits 10 (Nat.digits 10 n).reverse.reverse) =
      Except.ok n
    rw [List.reverse_reverse, Nat.ofDigits_digits]

theorem asNat_nat (n : Nat) : asNat (Json.num (n : Rat)) = .ok n := by
  show (if ((n : Rat).den = 1 ∧ 0 ≤ (n : Rat).num) then
      Except.ok ((n : Rat).num.toNat) else Except.error PyErr.typeError) =
    Except.ok n
  rw [if_pos ⟨Rat.den_natCast n, by rw [Rat.num_natCast]; exact Int.natCast_nonneg n⟩]
  rw [Rat.num_natCast]
  simp

theorem asRat_num (q : Rat) : asRat (Json.num q) = .ok q := rfl

theorem asOptNat_optNatToJson (b : Option Nat) :
    asOptNat (optNatToJson b) = .ok b := by
  cases b with
  | none => rfl
  | some x =>
    show (asNat (Json.num (x : Rat))).map some = .ok (some x)
    rw [asNat_nat]
    rfl

theorem asPair_rangeToJson (r : Nat × Nat) : asPair (rangeToJson r) = .ok r := by
  obtain ⟨a, b⟩ := r
  show (asNat (Json.num (a : Rat)) >>= fun x =>
    asNat (Json.num (b : Rat)) >>= fun y => Except.ok (x, y)) = Except.ok (a, b)
  simp only [asNat_nat, ok_bind]

theorem mapME_map {α β γ : Type} (f : β → Except PyErr γ) (g : α → β)
    (h : α → γ) (l : List α) (hfg : ∀ a ∈ l, f (g a) = .ok (h a)) :
    mapME f (l.map g) = .ok (l.map h) := by
  induction l with
  | nil => rfl
  | cons a as ih =>
    show (f (g a) >>= fun b =>
      mapME f (as.map g) >>= fun bs => Except.ok (b :: bs)) = _
    simp only [hfg a (List.mem_cons_self a as),
      ih (fun x hx => hfg x (List.mem_cons_of_mem a hx)), ok_bind]
    rfl

theorem searchState_roundtrip (s : SearchState) :
    SearchState.fromJson (SearchState.toJson s) = .ok s := by
  have hmap : mapME asPair (s.pending_ranges.map rangeToJson) =
      Except.ok s.pending_ranges := by
    have := mapME_map asPair rangeToJson id s.pending_ranges
      (fun r _ => asPair_rangeToJson r)
    simpa using this
  unfold SearchState.toJson SearchState.fromJson
  simp [List.lookup, jGetF, ok_bind, asNat_nat, asOptNat_optNatToJson,
    asArr, asBool, hmap]

theorem expeditionState_roundtrip (e : ExpeditionState) :
    ExpeditionState.fromJson (ExpeditionState.toJson e) = .ok e := by
  have hres : mapME (fun p => do
      let k ← pyInt p.1
      let v ← asNat p.2
      Except.ok (k, v))
      (e.results.map fun p => (natToString p.1, Json.num (p.2 : Rat))) =
      Except.ok e.results := by
    have := mapME_map (fun p : String × Json => do
        let k ← pyInt p.1
        let v ← asNat p.2
        Except.ok (k, v))
      (fun p : Nat × Nat => (natToString p.1, Json.num (p.2 : Rat)))
      id e.results
      (fun p _ => by
        show (pyInt (natToString p.1) >>= fun k =>
          asNat (Json.num (p.2 : Rat)) >>= fun v => Except.ok (k, v)) = _
        simp only [pyInt_natToString, asNat_nat, ok_bind]
        rfl)
    simpa using this
  have hrts : mapME (fun p => do
      let k ← pyInt p.1
      let v ← asRat p.2
      Except.ok (k, v))
      (e.result_times.map fun p => (natToString p.1, Json.num p.2)) =
      Except.ok e.result_times := by
    have := mapME_map (fun p : String × Json => do
        let k ← pyInt p.1
        let v ← asRat p.2
        Except.ok (k, v))
      (fun p : Nat × Rat => (natToString p.1, Json.num p.2))
      id e.result_times
      (fun p _ => by
        show (pyInt (natToString p.1) >>= fun k =>
          asRat (Json.num p.2) >>= fun v => Except.ok (k, v)) = _
        simp only [pyInt_natToString, asRat_num, ok_bind]
        rfl)
    simpa using this
  have hsrch : mapME (fun p => do
      let k ← pyInt p.1
      let v ← SearchState.fromJson p.2
      Except.ok (k, v))
      (e.searches.map fun p => (natToString p.1, SearchState.toJson p.2)) =
      Except.ok e.searches := by
    have := mapME_map (fun p : String × Json => do
        let k ← pyInt p.1
        let v ← SearchState.fromJson p.2
        Except.ok (k, v))
      (fun p : Nat × SearchState => (natToString p.1, SearchState.toJson p.2))
      id e.searches
      (fun p _ => by
        show (pyInt (natToString p.1) >>= fun k =>
          SearchState.fromJson (SearchState.toJson p.2) >>= fun v =>
            Except.ok (k, v)) = _
        simp only [pyInt_natToString, searchState_roundtrip, ok_bind]
        rfl)
    simpa using this
  have hbt : mapME asRat (e.batch_times.map Json.num) =
      Except.ok e.batch_times := by
    have := mapME_map asRat Json.num id e.batch_times
      (fun q _ => asRat_num q)
    simpa using this
  unfold ExpeditionState.toJson ExpeditionState.fromJson
  simp [List.lookup, jGet, ok_bind, asNat_nat, asRat_num, asObj, asArr,
    hres, hrts, hsrch, hbt]

/-! ## Batch-sizer bounds (C10 core) -/

theorem record_batch_bounds {bs : BatchSizer}
    (h1 : MIN_BATCH_SIZE ≤ bs.current_size)
    (h2 : bs.current_size ≤ MAX_BATCH_SIZE) (e : Rat) (w : Nat) :
    MIN_BATCH_SIZE ≤ (record_batch bs e w).current_size ∧
      (record_batch bs e w).current_size ≤ MAX_BATCH_SIZE := by
  simp only [MIN_BATCH_SIZE, MAX_BATCH_SIZE] at h1 h2 ⊢
  unfold record_batch
  simp only []
  by_cases h3 : 3 ≤ (pushWindow bs.times (e / (max w 1 : Nat))).length
  · rw [if_pos h3]
    by_cases hg :
        (pushWindow bs.times (e / (max w 1 : Nat))).sum /
            ((pushWindow bs.times (e / (max w 1 : Nat))).length : Rat) *
            (bs.current_size : Rat) <
          TARGET_BATCH_TIME * (1 / 2)
    · rw [if_pos hg]
      constructor
      · show 10 ≤ min (bs.current_size * 3 / 2) MAX_BATCH_SIZE
        unfold MAX_BATCH_SIZE
        omega
      · show min (bs.current_size * 3 / 2) MAX_BATCH_SIZE ≤ 5000
        unfold MAX_BATCH_SIZE
        omega
    · rw [if_neg hg]
      by_cases hs :
          TARGET_BATCH_TIME * (3 / 2) <
            (pushWindow bs.times (e / (max w 1 : Nat))).sum /
              ((pushWindow bs.times (e / (max w 1 : Nat))).length : Rat) *
              (bs.current_size : Rat)
      · rw [if_pos hs]
        constructor
        · show 10 ≤ max (bs.current_size * 7 / 10) MIN_BATCH_SIZE
          unfold MIN_BATCH_SIZE
          omega
        · show max (bs.current_size * 7 / 10) MIN_BATCH_SIZE ≤ 5000
          unfold MIN_BATCH_SIZE
          omega
      · rw [if_neg hs]
        exact ⟨h1, h2⟩
  · rw [if_neg h3]
    exact ⟨h1, h2⟩

theorem runBatches_bounds :
    ∀ (samples : List (Rat × Nat)) (bs : BatchSizer),
      MIN_BATCH_SIZE ≤ bs.current_size → bs.current_size ≤ MAX_BATCH_SIZE →
      MIN_BATCH_SIZE ≤ (runBatches bs samples).current_size ∧
        (runBatches bs samples).current_size ≤ MAX_BATCH_SIZE := by
  intro samples
  induction samples with
  | nil => intro bs h1 h2; exact ⟨h1, h2⟩
  | cons p rest ih =>
    intro bs h1 h2
    obtain ⟨g1, g2⟩ := record_batch_bounds h1 h2 p.1 p.2
    exact ih (record_batch bs p.1 p.2) g1 g2

/-! ## Claim theorems -/

/-- Claim C1: in every search state reachable from a fresh state by the
orchestrator's reserve (`_get_next_task`) and record (`_process_result`)
operations, `completed` is true exactly when a best candidate exists and the
confirmed boundary `completed_up_to` has reached it — `_process_result`
finalizes a search precisely when this predicate holds after removing the
resolved range and recomputing the boundary. -/
theorem c1_completed_iff {s : SearchState} (h : Reachable s) :
    s.completed = true ↔
      ∃ b, s.best_candidate = some b ∧ b ≤ s.completed_up_to :=
  (reachable_inv h).comp_iff

/-- Witness for C1 at a concrete completed state: reserve `[2, 12)` from a
fresh search with lower bound 2, then record a hit at offset 5. -/
theorem c1_witness :
    (processResult (reserveRange (freshSearch 5 2) 10) (2, 12)
        (some 5)).completed = true ↔
      ∃ b, (processResult (reserveRange (freshSearch 5 2) 10) (2, 12)
        (some 5)).best_candidate = some b ∧
        b ≤ (processResult (reserveRange (freshSearch 5 2) 10) (2, 12)
          (some 5)).completed_up_to :=
  c1_completed_iff
    (Reachable.step
      (Reachable.step (Reachable.fresh 5 2)
        (Step.reserve (freshSearch 5 2) 10 (by decide) rfl
          (fun b hb => Option.noConfusion hb)))
      (Step.record (reserveRange (freshSearch 5 2) 10) (2, 12) (some 5)))

/-- Claim C3: `completed_up_to` never decreases across any reserve or record
transition (including the finalization inside `_process_result`), so it is
monotonically non-decreasing over the lifetime of a reachable search. -/
theorem c3_boundary_monotone {s t : SearchState} (h : Reachable s)
    (hstep : Step s t) : s.completed_up_to ≤ t.completed_up_to :=
  cu_mono_step (reachable_inv h) hstep

/-- Witness for C3 at a concrete step: recording a miss for the pending
range `[2, 12)` advances the boundary from 2 to 12. -/
theorem c3_witness :
    (reserveRange (freshSearch 5 2) 10).completed_up_to ≤
      (processResult (reserveRange (freshSearch 5 2) 10) (2, 12)
        none).completed_up_to :=
  c3_boundary_monotone
    (Reachable.step (Reachable.fresh 5 2)
      (Step.reserve (freshSearch 5 2) 10 (by decide) rfl
        (fun b hb => Option.noConfusion hb)))
    (Step.record (reserveRange (freshSearch 5 2) 10) (2, 12) none)

/-- Claim C7: a result for a range no longer in `pending_ranges` (a stale
duplicate of an already-resolved range, which therefore reports the same
found offset — one at or above the recorded best candidate — or no offset)
is a no-op: `_process_result` leaves the whole search state, in particular
`completed_up_to`, `best_candidate` and the completion status, unchanged. -/
theorem c7_stale_result_noop {s : SearchState} (h : Reachable s)
    {r : Nat × Nat} (hr : r ∉ s.pending_ranges) {found : Option Nat}
    (hfound : ∀ m, found = some m →
      ∃ b, s.best_candidate = some b ∧ b ≤ m) :
    processResult s r found = s := by
  have hInv := reachable_inv h
  unfold processResult
  by_cases hc : s.completed
  · rw [if_pos hc]
  · rw [if_neg hc]
    simp only []
    have herase : s.pending_ranges.erase r = s.pending_ranges :=
      List.erase_of_not_mem hr
    have hbest : updateBest s.best_candidate found = s.best_candidate := by
      cases hf : found with
      | none => rfl
      | some m =>
        obtain ⟨b, hb, hble⟩ := hfound m hf
        rw [hb, updateBest_some_some, Nat.min_eq_left hble]
    have hnofin : shouldFinalize (updateBest s.best_candidate found)
        (boundary (s.pending_ranges.erase r) s.next_offset) = false := by
      rw [hbest, herase, ← hInv.bound]
      cases hbb : s.best_candidate with
      | none => rfl
      | some b =>
        show decide (b ≤ s.completed_up_to) = false
        rw [decide_eq_false_iff_not]
        intro hble
        have := hInv.comp_iff.mpr ⟨b, hbb, hble⟩
        exact hc (by simpa using this)
    rw [hnofin]
    rw [if_neg (by simp)]
    rw [herase, hbest, ← hInv.bound]

/-- Witness for C7: from a reachable state with pending `[(2, 12)]` and best
candidate 15, a duplicate result for the already-resolved range `[12, 22)`
leaves the state unchanged. -/
theorem c7_witness :
    processResult
      (processResult
        (reserveRange (reserveRange (freshSearch 5 2) 10) 10)
        (12, 22) (some 15))
      (12, 22) (some 15) =
    processResult
      (reserveRange (reserveRange (freshSearch 5 2) 10) 10)
      (12, 22) (some 15) :=
  c7_stale_result_noop
    (Reachable.step
      (Reachable.step
        (Reachable.step (Reachable.fresh 5 2)
          (Step.reserve (freshSearch 5 2) 10 (by decide) rfl
            (fun b hb => Option.noConfusion hb)))
        (Step.reserve (reserveRange (freshSearch 5 2) 10) 10 (by decide) rfl
          (fun b hb => Option.noConfusion hb)))
      (Step.record (reserveRange (reserveRange (freshSearch 5 2) 10) 10)
        (12, 22) (some 15)))
    (by decide)
    (fun m hm => ⟨15, by decide,
      by injection hm with hm; omega⟩)

/-- Claim C9: in every reachable state the pending ranges are pairwise
disjoint half-open intervals — each later-issued range starts at or beyond
the end of each earlier one, because fresh ranges are taken from
`next_offset`, which lies at or beyond the end of every issued range. -/
theorem c9_pending_disjoint {s : SearchState} (h : Reachable s) :
    s.pending_ranges.Pairwise (fun r t => r.2 ≤ t.1) ∧
    s.pending_ranges.Pairwise
      (fun r t => ∀ m, ¬(r.1 ≤ m ∧ m < r.2 ∧ t.1 ≤ m ∧ m < t.2)) := by
  have hInv := reachable_inv h
  refine ⟨hInv.sorted, hInv.sorted.imp ?_⟩
  intro a b hab m
  omega

/-- Witness for C9 at a concrete state holding the two pending ranges
`[2, 12)` and `[12, 22)`. -/
theorem c9_witness :
    (reserveRange (reserveRange (freshSearch 5 2) 10) 10).pending_ranges.Pairwise
      (fun r t => r.2 ≤ t.1) ∧
    (reserveRange (reserveRange (freshSearch 5 2) 10) 10).pending_ranges.Pairwise
      (fun r t => ∀ m, ¬(r.1 ≤ m ∧ m < r.2 ∧ t.1 ≤ m ∧ m < t.2)) :=
  c9_pending_disjoint
    (Reachable.step
      (Reachable.step (Reachable.fresh 5 2)
        (Step.reserve (freshSearch 5 2) 10 (by decide) rfl
          (fun b hb => Option.noConfusion hb)))
      (Step.reserve (reserveRange (freshSearch 5 2) 10) 10 (by decide) rfl
        (fun b hb => Option.noConfusion hb)))

/-- Claim C2: for a fixed set of dispatched ranges (the pending ranges of a
not-yet-completed search, each ending at or before `next_offset`) with a
fixed worker result per range (any found offset lying inside its range),
feeding the results to `_process_result` in any arrival order yields the
same final `best_candidate` and the same final `completed_up_to`. -/
theorem c2_order_independent {s : SearchState}
    {rs1 rs2 : List ((Nat × Nat) × Option Nat)}
    (hperm : rs1.Perm rs2)
    (hc : s.completed = false)
    (hcov : (rs1.map Prod.fst).Perm s.pending_ranges)
    (hfound : ∀ rf ∈ rs1, ∀ m, rf.2 = some m → rf.1.1 ≤ m ∧ m < rf.1.2)
    (hend : ∀ r ∈ s.pending_ranges, r.2 ≤ s.next_offset) :
    (processAll s rs1).best_candidate = (processAll s rs2).best_candidate ∧
    (processAll s rs1).completed_up_to =
      (processAll s rs2).completed_up_to := by
  have h1 := processAll_formula rs1 s hc hcov hfound hend
  have hcov2 : (rs2.map Prod.fst).Perm s.pending_ranges :=
    (hperm.symm.map Prod.fst).trans hcov
  have hfound2 : ∀ rf ∈ rs2, ∀ m, rf.2 = some m →
      rf.1.1 ≤ m ∧ m < rf.1.2 :=
    fun rf hrf => hfound rf (hperm.symm.subset hrf)
  have h2 := processAll_formula rs2 s hc hcov2 hfound2 hend
  have hemp : rs1.isEmpty = rs2.isEmpty := by
    have hlen := hperm.length_eq
    cases rs1 <;> cases rs2 <;> simp_all
  constructor
  · rw [h1.1, h2.1]
    exact foldBest_perm hperm s.best_candidate
  · rw [h1.2, h2.2, hemp]

/-- Witness for C2: the two pending ranges `[2, 12)` (miss) and `[12, 22)`
(hit at 15) processed in either order. -/
theorem c2_witness :
    (processAll (reserveRange (reserveRange (freshSearch 5 2) 10) 10)
        [((2, 12), none), ((12, 22), some 15)]).best_candidate =
      (processAll (reserveRange (reserveRange (freshSearch 5 2) 10) 10)
        [((12, 22), some 15), ((2, 12), none)]).best_candidate ∧
    (processAll (reserveRange (reserveRange (freshSearch 5 2) 10) 10)
        [((2, 12), none), ((12, 22), some 15)]).completed_up_to =
      (processAll (reserveRange (reserveRange (freshSearch 5 2) 10) 10)
        [((12, 22), some 15), ((2, 12), none)]).completed_up_to :=
  c2_order_independent
    (List.Perm.swap ((12, 22), some 15) ((2, 12), none) [])
    rfl (by decide) (by decide) (by decide)

/-- Claim C4: for a worker task `(n, start, end)` the reported `found_m` is
`none` exactly when no offset `m` in `[start, end)` makes the external
primality oracle accept `primorial(n) + m`, and any reported offset is the
smallest qualifying one in `[start, end)`: the worker scans offsets in
increasing order and stops at the first hit. -/
theorem c4_worker_scan (oracle : Nat → Bool) (pn start e : Nat) :
    (workerFound oracle pn start e = none ↔
      ∀ m, start ≤ m → m < e → oracle (pn + m) = false) ∧
    (∀ m, workerFound oracle pn start e = some m →
      start ≤ m ∧ m < e ∧ oracle (pn + m) = true ∧
        ∀ k, start ≤ k → k < m → oracle (pn + k) = false) := by
  constructor
  · unfold workerFound
    rw [scanBatch_eq_none]
    constructor
    · intro h m h1 h2
      exact h m h1 (by omega)
    · intro h m h1 h2
      exact h m h1 (by omega)
  · intro m hm
    obtain ⟨h1, h2, h3, h4⟩ := scanBatch_eq_some (e - start) start m hm
    exact ⟨h1, by omega, h3, h4⟩

/-- Witness for C4: with the oracle accepting exactly 7 and base 2, the scan
of `[2, 12)` reports offset 5, the smallest qualifying offset. -/
theorem c4_witness :
    workerFound (fun x => x == 7) 2 2 12 = some 5 ∧
    (2 ≤ 5 ∧ 5 < 12 ∧ (fun x => x == 7) (2 + 5) = true ∧
      ∀ k, 2 ≤ k → k < 5 → (fun x => x == 7) (2 + k) = false) :=
  ⟨by decide, (c4_worker_scan (fun x => x == 7) 2 2 12).2 5 (by decide)⟩

/-- Claim C5: with a fixed oracle, any two completed honest executions with
the same lower bound report the same best candidate — in particular a run
resumed from a mid-batch checkpoint (which restores the interrupted state
verbatim and re-dispatches its pending ranges as orphans, so it continues
the same honest trace) produces the same final answer `results[n]` as an
uninterrupted run. -/
theorem c5_resume_equivalence {q : Nat → Bool} {s1 s2 : SearchState}
    (h1 : HReach q s1) (h2 : HReach q s2)
    (hp : s1.p_n_plus_1 = s2.p_n_plus_1)
    (hc1 : s1.completed = true) (hc2 : s2.completed = true) :
    s1.best_candidate = s2.best_candidate := by
  obtain ⟨b1, hb1, hq1, hp1, hmin1⟩ := completed_answer h1 hc1
  obtain ⟨b2, hb2, hq2, hp2, hmin2⟩ := completed_answer h2 hc2
  have hbb : b1 = b2 := by
    rcases Nat.lt_trichotomy b1 b2 with hlt | heq | hgt
    · have := hmin2 b1 (hp ▸ hp1) hlt
      rw [this] at hq1
      cases hq1
    · exact heq
    · have := hmin1 b2 (hp ▸ hp2) hgt
      rw [this] at hq2
      cases hq2
  rw [hb1, hb2, hbb]

/-- Witness for C5: with the oracle accepting exactly offset 5 and lower
bound 2, an uninterrupted one-batch run and an interrupted-style two-batch
run both complete with best candidate 5. -/
theorem c5_witness :
    (processResult (reserveRange (freshSearch 5 2) 10) (2, 12)
        (scanBatch (fun m => m == 5) 2 10)).best_candidate =
      (processResult
        (reserveRange
          (processResult (reserveRange (freshSearch 5 2) 2) (2, 4)
            (scanBatch (fun m => m == 5) 2 2))
          10)
        (4, 14) (scanBatch (fun m => m == 5) 4 10)).best_candidate :=
  c5_resume_equivalence
    (HReach.step
      (HReach.step (HReach.fresh 5 2)
        (HStep.reserve (freshSearch 5 2) 10 (by decide) rfl
          (fun b hb => Option.noConfusion hb)))
      (HStep.record (reserveRange (freshSearch 5 2) 10) (2, 12) (by decide)))
    (HReach.step
      (HReach.step
        (HReach.step
          (HReach.step (HReach.fresh 5 2)
            (HStep.reserve (freshSearch 5 2) 2 (by decide) rfl
              (fun b hb => Option.noConfusion hb)))
          (HStep.record (reserveRange (freshSearch 5 2) 2) (2, 4) (by decide)))
        (HStep.reserve
          (processResult (reserveRange (freshSearch 5 2) 2) (2, 4)
            (scanBatch (fun m => m == 5) 2 2))
          10 (by decide) (by decide)
          (fun b hb => by
            rw [show (processResult (reserveRange (freshSearch 5 2) 2) (2, 4)
              (scanBatch (fun m => m == 5) 2 2)).best_candidate = none
              from by decide] at hb
            exact Option.noConfusion hb)))
      (HStep.record
        (reserveRange
          (processResult (reserveRange (freshSearch 5 2) 2) (2, 4)
            (scanBatch (fun m => m == 5) 2 2))
          10)
        (4, 14) (by decide)))
    (by decide) (by decide) (by decide)

/-- Claim C6: the checkpoint round-trips — `ExpeditionState.to_dict`
serialized to JSON and read back through `ExpeditionState.from_dict`
reconstructs an equal state (string dict keys parse back to their integer
values, range pairs are rebuilt from their two-element arrays, and every
scalar field is preserved), so `load(save(state)) == state` for every
state. -/
theorem c6_checkpoint_roundtrip (e : ExpeditionState) :
    ExpeditionState.fromJson (ExpeditionState.toJson e) = .ok e ∧
    loadModel (.decoded (ExpeditionState.toJson e)) = .ok (some e) := by
  have h := expeditionState_roundtrip e
  refine ⟨h, ?_⟩
  simp only [loadModel]
  rw [h]

/-- A syntactically valid JSON checkpoint whose `results` dict carries the
non-numeric key `"x"`: `int("x")` raises `ValueError`, which
`CheckpointManager.load` does not catch. -/
def badCheckpoint : Json :=
  .obj [("start_n", .num 1), ("end_n", .num 1),
        ("results", .obj [("x", .num 5)])]

/-- Counterexample for C8: for this concrete corrupt checkpoint content,
`load` raises `ValueError` instead of returning `None`, and startup aborts
instead of falling back to a fresh state. -/
theorem c8_counterexample :
    loadModel (.decoded badCheckpoint) = .error .valueError ∧
    initStateModel (fun _ => 2) true (.decoded badCheckpoint) 1 1 =
      .error .valueError :=
  ⟨rfl, rfl⟩

theorem initStateModel_decoded (nthPrime : Nat → Nat) (sn en : Nat)
    (j : Json) :
    initStateModel nthPrime true (.decoded j) sn en =
      (loadModel (.decoded j) >>= fun loaded =>
        match loaded with
        | some st =>
          if st.start_n = sn ∧ st.end_n = en then .ok st
          else .ok (createInitialState nthPrime sn en)
        | none => .ok (createInitialState nthPrime sn en)) := rfl

/-- Claim C8 as amended: `CheckpointManager.load` returns `None` — and the
Orchestrator then falls back to a fresh initial state — when the checkpoint
file is absent, fails JSON decoding, or deserializes with a missing-key
error; but corrupt content that is valid JSON can raise an uncaught error
(for example `ValueError` from a non-numeric dictionary key), which
propagates and aborts startup. -/
theorem c8_amended (nthPrime : Nat → Nat) (sn en : Nat) :
    loadModel .absent = .ok none ∧
    loadModel .undecodable = .ok none ∧
    (∀ j, ExpeditionState.fromJson j = .error .keyError →
      loadModel (.decoded j) = .ok none) ∧
    (∀ c, loadModel c = .ok none →
      initStateModel nthPrime true c sn en =
        .ok (createInitialState nthPrime sn en)) ∧
    (∀ j e, ExpeditionState.fromJson j = .error e → e ≠ .keyError →
      initStateModel nthPrime true (.decoded j) sn en = .error e) := by
  refine ⟨rfl, rfl, ?_, ?_, ?_⟩
  · intro j hj
    simp only [loadModel]
    rw [hj]
  · intro c hc
    cases c with
    | absent => rfl
    | undecodable => rfl
    | decoded j =>
      rw [initStateModel_decoded, hc, ok_bind]
  · intro j e hj he
    have hl : loadModel (.decoded j) = .error e := by
      simp only [loadModel]
      rw [hj]
      cases e with
      | keyError => exact absurd rfl he
      | valueError => rfl
      | typeError => rfl
      | attributeError => rfl
    rw [initStateModel_decoded, hl]
    rfl

/-- Witness for C8 (amended): an empty JSON object is missing `start_n`, so
`load` returns `None`; an undecodable file makes startup fall back to the
fresh initial state. -/
theorem c8_witness :
    loadModel (.decoded (Json.obj [])) = .ok none ∧
    initStateModel (fun _ => 2) true .undecodable 3 4 =
      .ok (createInitialState (fun _ => 2) 3 4) :=
  ⟨(c8_amended (fun _ => 2) 3 4).2.2.1 (Json.obj []) rfl,
   (c8_amended (fun _ => 2) 3 4).2.2.2.1 .undecodable
     (c8_amended (fun _ => 2) 3 4).2.1⟩

/-- Claim C10: starting from an in-bounds size, every sequence of
`record_batch` calls keeps `current_size` within
`[MIN_BATCH_SIZE, MAX_BATCH_SIZE] = [10, 5000]` — growth is clamped above
at the maximum, shrinking below at the minimum — so the proposed width is
always at least 1. -/
theorem c10_batch_size_bounds {bs : BatchSizer}
    (h1 : MIN_BATCH_SIZE ≤ bs.current_size)
    (h2 : bs.current_size ≤ MAX_BATCH_SIZE)
    (samples : List (Rat × Nat)) :
    (MIN_BATCH_SIZE ≤ (runBatches bs samples).current_size ∧
      (runBatches bs samples).current_size ≤ MAX_BATCH_SIZE) ∧
    1 ≤ (runBatches bs samples).current_size := by
  obtain ⟨g1, g2⟩ := runBatches_bounds samples bs h1 h2
  refine ⟨⟨g1, g2⟩, ?_⟩
  have hmin : MIN_BATCH_SIZE = 10 := rfl
  omega

/-- Witness for C10: one fast sample recorded from the default size 100. -/
theorem c10_witness :
    (MIN_BATCH_SIZE ≤
        (runBatches ⟨100, []⟩ [((1 : Rat), 100)]).current_size ∧
      (runBatches ⟨100, []⟩ [((1 : Rat), 100)]).current_size ≤
        MAX_BATCH_SIZE) ∧
    1 ≤ (runBatches ⟨100, []⟩ [((1 : Rat), 100)]).current_size :=
  c10_batch_size_bounds (by decide) (by decide) [((1 : Rat), 100)]

end Expedition
